import Mathlib

/-!
Shallow embedding of the `stl` repository's dynamic array container
(`src/include/stl/vector.hpp`) together with the raw-memory helpers it is
built on (`src/include/stl/memory.hpp`) and the swap helper from
`src/include/stl/utility.hpp`.

Storage is modelled explicitly: a heap maps block addresses to block
contents, a block is a list of slots, and an uninitialized slot is `none`
while a live slot constructed with value `x` is `some x`.  A vector holds
an optional block address (`none` models the null pointer), the element
count `size_` and the slot count `cap_`.  `malloc` hands out fresh
addresses; `malloc(0)` is modelled as returning the null pointer (one of
the behaviours the C standard permits).  `free` has no observable effect
in this model (deallocation state is not tracked).  Move-assigning a value
between slots is modelled as copying the value, which is the value-level
semantics of a move.  Loops over raw pointers are modelled by structural
recursion on the iteration count; a loop whose C++ counterpart performs an
out-of-bounds access through unsigned wraparound is modelled as `Option`
failure at its call site (see `vector.insert`).
-/

namespace Stl

variable {α : Type} {β : Type}

/-- Heap of allocated blocks: `next` is the next fresh address (addresses
start at 1, so 0 is never handed out), `blocks a` is the contents of the
block at address `a`. -/
structure Heap (α : Type) where
  next : Nat
  blocks : Nat → List (Option α)

/-- The initial heap: no block allocated yet. -/
def Heap.empty (α : Type) : Heap α := ⟨1, fun _ => []⟩

/-- Overwrite the contents of the block at address `a`. -/
def Heap.write (h : Heap α) (a : Nat) (l : List (Option α)) : Heap α :=
  ⟨h.next, fun b => if b = a then l else h.blocks b⟩

/-- Model of `malloc(n * sizeof(T))`: a fresh block of `n` uninitialized
slots.  `malloc(0)` is modelled as returning the null pointer. -/
def malloc (h : Heap α) (n : Nat) : Option Nat × Heap α :=
  if n = 0 then (none, h)
  else (some h.next,
    ⟨h.next + 1, fun b => if b = h.next then List.replicate n none else h.blocks b⟩)

/-- The three data members of `stl::vector<T>`: `data_` (block address,
`none` models `nullptr`), `size_` and `cap_`. -/
structure vector (α : Type) where
  data : Option Nat
  size : Nat
  cap : Nat
deriving DecidableEq

/-- Contents of the block a vector's `data_` points to; reading through the
null pointer yields the empty block. -/
def blockOf (h : Heap α) (v : vector α) : List (Option α) :=
  match v.data with
  | none => []
  | some a => h.blocks a

/-- Write through a vector's `data_` pointer; a write through the null
pointer (which never stores anything in the C++ either, since all writes
are guarded by sizes) leaves the heap unchanged. -/
def storeWrite (h : Heap α) (v : vector α) (l : List (Option α)) : Heap α :=
  match v.data with
  | none => h
  | some a => h.write a l

/-- The live prefix `data_[0 .. size_)` of a vector. -/
def live (h : Heap α) (v : vector α) : List (Option α) :=
  (blockOf h v).take v.size

/-- Basic well-formedness of a vector state: the block really has `cap_`
slots and `size_ <= cap_`. -/
def wf (v : vector α) (h : Heap α) : Prop :=
  (blockOf h v).length = v.cap ∧ v.size ≤ v.cap

instance (v : vector α) (h : Heap α) : Decidable (wf v h) := by
  unfold wf; infer_instance

/-- Address validity: the vector's block address was indeed handed out by
the heap's allocator (it is below the fresh-address counter). -/
def validAddr (v : vector α) (h : Heap α) : Prop :=
  ∀ a, v.data = some a → a < h.next

instance (v : vector α) (h : Heap α) : Decidable (validAddr v h) := by
  unfold validAddr
  match v.data with
  | none => exact .isTrue (by intro a ha; cases ha)
  | some a =>
    match Nat.decLt a h.next with
    | .isTrue hlt => exact .isTrue (by intro b hb; cases hb; exact hlt)
    | .isFalse hlt => exact .isFalse (by intro hc; exact hlt (hc a rfl))

/-! ## Loop helpers

Each raw-pointer loop of `memory.hpp` / `vector.hpp` is modelled as a
structurally recursive function on the iteration count, acting on the block
contents by index. -/

/-- Loop of `stl::fill` / `stl::memplace` (`memory.hpp`): write `value`
into the `k` slots starting at index `s` (both the trivially-copyable byte
path and the `construct_at` path store the same value). -/
def fillRange (l : List (Option α)) (s : Nat) (value : α) : Nat → List (Option α)
  | 0 => l
  | k + 1 => fillRange (l.set s (some value)) (s + 1) value k

/-- Loop of `stl::destroy` (`memory.hpp`): the `k` slots starting at index
`s` stop being live. -/
def destroyRange (l : List (Option α)) (s : Nat) : Nat → List (Option α)
  | 0 => l
  | k + 1 => destroyRange (l.set s none) (s + 1) k

/-- Loop of `stl::construct` (`memory.hpp`): copy-construct `k` elements
of `src` into `dest`, starting at index `i` (the `memcpy` byte path and the
`construct_at` path store the same values). -/
def copyLoop (dest src : List (Option α)) (i : Nat) : Nat → List (Option α)
  | 0 => dest
  | k + 1 => copyLoop (dest.set i (src.getD i none)) src (i + 1) k

/-- Loop of `stl::c_erase` (`memory.hpp`):
`while (start != end - n) { *start = move(*(start + n)); start++; }`,
run for `k = (end - n) - start` iterations from index `s`. -/
def c_erase_loop (l : List (Option α)) (s n : Nat) : Nat → List (Option α)
  | 0 => l
  | k + 1 => c_erase_loop (l.set s (l.getD (s + n) none)) (s + 1) n k

/-- `stl::c_erase(start, end, n)` (`memory.hpp`), with pointers replaced by
indices into the block: shift the survivors left by `n`, then destroy the
vacated trailing `n` slots.  Meaningful for `s ≤ e - n`; for `s > e - n`
the C++ loop would run off the end of the block. -/
def c_erase (l : List (Option α)) (s e n : Nat) : List (Option α) :=
  destroyRange (c_erase_loop l s n (e - n - s)) (e - n) n

/-- Shift loop of `vector::insert`:
`for (back = size_after - 1; back >= size_; --back, --front)
   data_[back] = move(data_[front]);`
run for its `n = size_after - size_` iterations (fuel `k` counts the
remaining iterations; the first iteration writes index `size + n - 1` from
index `size - 1`).  The caller is responsible for ruling out the unsigned
wraparound cases (`size_ == 0`, or `n > size_`). -/
def insertShiftLoop (l : List (Option α)) (size n : Nat) : Nat → List (Option α)
  | 0 => l
  | k + 1 => insertShiftLoop (l.set (size + k) (l.getD (size + k - n) none)) size n k

/-- Write loop of `vector::insert`: `*loc++ = val` repeated `k` times. -/
def insertWriteLoop (l : List (Option α)) (loc : Nat) (value : α) : Nat → List (Option α)
  | 0 => l
  | k + 1 => insertWriteLoop (l.set loc (some value)) (loc + 1) value k

/-- Modelled from the spec: `stl::max` as used by `vector::insert` is
declared in `algorithm.hpp`, a header not present in the repository
snapshot; the spec's growth policy (and the conditional
`f > s ? f : s` in `utility.hpp`) describe the usual maximum. -/
def stl_max (a b : Nat) : Nat := if a > b then a else b

/-! ## The vector operations (`vector.hpp`) -/

/-- Default constructor: `size_ = 0; cap_ = 0; data_ = nullptr;`. -/
def vector.new : vector α := ⟨none, 0, 0⟩

/-- `init_data_()`: `data_ = malloc(cap_ * sizeof(T))`. -/
def init_data_ (v : vector α) (h : Heap α) : vector α × Heap α :=
  let p := malloc h v.cap
  (⟨p.1, v.size, v.cap⟩, p.2)

/-- `vector(size_t cap)`: capacity `cap`, size 0, uninitialized block. -/
def vector.withCap (h : Heap α) (cap : Nat) : vector α × Heap α :=
  init_data_ ⟨none, 0, cap⟩ h

/-- `vector(size_t cap, const T &value)`: allocate, set `size_ = cap`, then
fill every slot with `value` (`memplace` for trivially-constructible `T`,
`stl::fill` otherwise; both store `value` into slots `[0, cap)`). -/
def vector.withFill (h : Heap α) (cap : Nat) (value : α) : vector α × Heap α :=
  let p := init_data_ ⟨none, 0, cap⟩ h
  let v := ⟨p.1.data, cap, cap⟩
  (v, storeWrite p.2 v (fillRange (blockOf p.2 v) 0 value cap))

/-- Initializer-list constructor: `cap_ = list.size(); size_ = 0;
init_data_();` then placement-new each element in order, so the block ends
up holding exactly the listed values. -/
def vector.ofList (h : Heap α) (l : List α) : vector α × Heap α :=
  let p := init_data_ ⟨none, 0, l.length⟩ h
  let v : vector α := ⟨p.1.data, l.length, l.length⟩
  (v, storeWrite p.2 v (l.map some))

/-- `realloc_(n = 0)`: pick the new capacity (`cap_ == 0 ? 2 : cap_ * 2`
when no target is given, else exactly `n`), allocate the new block, copy
the `size_` live elements across (`memcpy` or per-element move
construction; both transfer the values), release the old block and adopt
the new one. -/
def realloc_ (v : vector α) (h : Heap α) (n : Nat) : vector α × Heap α :=
  let oldBlock := blockOf h v
  let cap := if n = 0 then (if v.cap = 0 then 2 else v.cap * 2) else n
  let p := malloc h cap
  let v' : vector α := ⟨p.1, v.size, cap⟩
  (v', storeWrite p.2 v' (copyLoop (List.replicate cap none) oldBlock 0 v.size))

/-- Copy constructor: copy `cap_`/`size_`, allocate a fresh block, then
`construct(data_, other.data_, size_)`. -/
def copyCtor (other : vector α) (h : Heap α) : vector α × Heap α :=
  let p := init_data_ ⟨none, other.size, other.cap⟩ h
  (p.1, storeWrite p.2 p.1 (copyLoop (blockOf p.2 p.1) (blockOf h other) 0 other.size))

/-- Move constructor: take `other`'s `cap_`, `size_` and `data_`, and null
out `other.data_` (its `size_` and `cap_` members are not touched). -/
def moveCtor (other : vector α) : vector α × vector α :=
  (⟨other.data, other.size, other.cap⟩, ⟨none, other.size, other.cap⟩)

/-- Copy assignment.  The C++ guard `if (this == &other) return *this;`
compares the identities of the two vector objects; the flag `isSelf`
stands for the outcome of that pointer comparison.  Otherwise: release own
storage, copy `size_`/`cap_`, allocate a fresh block and copy-construct
`other`'s live elements into it.  The result is the pair of the assigned
vector and the heap. -/
def copyAssign (isSelf : Bool) (self other : vector α) (h : Heap α) :
    vector α × Heap α :=
  if isSelf then (self, h)
  else
    let p := init_data_ ⟨none, other.size, other.cap⟩ h
    (p.1, storeWrite p.2 p.1 (copyLoop (blockOf p.2 p.1) (blockOf h other) 0 other.size))

/-- Move assignment: release own storage, take `other`'s `data_`, `size_`
and `cap_`, and null out `other.data_` (its `size_`/`cap_` stay). -/
def moveAssign (self other : vector α) : vector α × vector α :=
  (⟨other.data, other.size, other.cap⟩, ⟨none, other.size, other.cap⟩)

/-- `reserve(n)`: no-op when `cap_ >= n`, else reallocate to capacity
exactly `n`. -/
def reserve (v : vector α) (h : Heap α) (n : Nat) : vector α × Heap α :=
  if v.cap ≥ n then (v, h) else realloc_ v h n

/-- `resize(n)`: reallocate to capacity `n` if `n > cap_`; destroy the
truncated tail if `n < size_`; default-construct (`T()`) into the new
slots if `n > size_`; finally `size_ = n`. -/
def resize [Inhabited α] (v : vector α) (h : Heap α) (n : Nat) : vector α × Heap α :=
  let p := if n > v.cap then realloc_ v h n else (v, h)
  let v' := p.1
  let h' :=
    if n < v'.size then storeWrite p.2 v' (destroyRange (blockOf p.2 v') n (v'.size - n))
    else if n > v'.size then
      storeWrite p.2 v' (fillRange (blockOf p.2 v') v'.size default (n - v'.size))
    else p.2
  (⟨v'.data, n, v'.cap⟩, h')

/-- `at(i)`: throw `std::out_of_range` when `i >= size_`, else return
`data_[i]`.  The member only reads; it cannot modify the vector. -/
def at_ (v : vector α) (h : Heap α) (i : Nat) : Except Unit (Option α) :=
  if i ≥ v.size then Except.error () else Except.ok ((blockOf h v).getD i none)

/-- `push_back(val)`: grow via `realloc_()` when full, then placement-new
`val` at `data_ + size_` and increment `size_`. -/
def push_back (v : vector α) (h : Heap α) (val : α) : vector α × Heap α :=
  let p := if v.cap = v.size then realloc_ v h 0 else (v, h)
  let v' := p.1
  (⟨v'.data, v'.size + 1, v'.cap⟩,
    storeWrite p.2 v' ((blockOf p.2 v').set v'.size (some val)))

/-- A whole sequence of `push_back` calls. -/
def push_many (v : vector α) (h : Heap α) (vals : List α) : vector α × Heap α :=
  vals.foldl (fun p x => push_back p.1 p.2 x) (v, h)

/-- `pop_back()`: destroy `data_[size_ - 1]`, decrement `size_`. -/
def pop_back (v : vector α) (h : Heap α) : vector α × Heap α :=
  (⟨v.data, v.size - 1, v.cap⟩,
    storeWrite h v ((blockOf h v).set (v.size - 1) none))

/-- `clear()`: destroy `data_[0 .. size_)`, set `size_ = 0`. -/
def clear (v : vector α) (h : Heap α) : vector α × Heap α :=
  (⟨v.data, 0, v.cap⟩, storeWrite h v (destroyRange (blockOf h v) 0 v.size))

/-- `copy_swap(a, b)` from `utility.hpp`, transcribed exactly:
`T temp = a; a = b; b = a;` (note that `temp` is never read again). -/
def copy_swap (a b : β) : β × β :=
  let temp := a
  let a := b
  let b := a
  let _ := temp
  (a, b)

/-- `vector::swap(other)`: `copy_swap` each of the three members. -/
def swap (v other : vector α) : vector α × vector α :=
  let s := copy_swap v.size other.size
  let c := copy_swap v.cap other.cap
  let d := copy_swap v.data other.data
  (⟨d.1, s.1, c.1⟩, ⟨d.2, s.2, c.2⟩)

/-- `insert(loc, val, n)` with `loc` given as an index into the block.
Reallocates to `max(cap_ * 2, size_ + n)` when the new size exceeds the
capacity (the index form of `loc = data_ + diff` is unchanged by the
reallocation).  The shift loop
`for (back = size_after - 1; back >= size_; --back, --front)` underflows
its unsigned counters when `size_ == 0` (so also for `n == 0`) or when
`n > size_`, making the C++ read out of bounds; those cases are modelled
as `none`.  Otherwise the shift loop runs, `n` copies of `val` are
assigned starting at `loc`, and `size_` grows by `n`. -/
def insert (v : vector α) (h : Heap α) (loc : Nat) (val : α) (n : Nat) :
    Option (vector α × Heap α) :=
  let sai := v.size + n
  let p := if sai > v.cap then realloc_ v h (stl_max (v.cap * 2) sai) else (v, h)
  let v' := p.1
  if v'.size = 0 ∨ n > v'.size then none
  else
    some (⟨v'.data, sai, v'.cap⟩,
      storeWrite p.2 v'
        (insertWriteLoop (insertShiftLoop (blockOf p.2 v') v'.size n n) loc val n))

/-- `erase(loc)` with `loc` given as an index:
`c_erase(loc, data_ + size_, 1); size_--;`. -/
def erase1 (v : vector α) (h : Heap α) (loc : Nat) : vector α × Heap α :=
  (⟨v.data, v.size - 1, v.cap⟩,
    storeWrite h v (c_erase (blockOf h v) loc v.size 1))

/-- `erase(start, end)` with the range given as indices `[s, e)`:
`c_erase(start, data_ + size_, end - start); size_ -= end - start;`. -/
def eraseRange (v : vector α) (h : Heap α) (s e : Nat) : vector α × Heap α :=
  (⟨v.data, v.size - (e - s), v.cap⟩,
    storeWrite h v (c_erase (blockOf h v) s v.size (e - s)))

/-- Mutation of one element through `operator[]` (`v[i] = x`). -/
def setIdx (v : vector α) (h : Heap α) (i : Nat) (x : α) : Heap α :=
  storeWrite h v ((blockOf h v).set i (some x))

/-- Invariant claimed by the spec: `data_ == nullptr` iff `cap_ == 0`. -/
def inv (v : vector α) : Prop := v.data = none ↔ v.cap = 0

instance (v : vector α) : Decidable (inv v) := by
  unfold inv; infer_instance

/-! ## List index lemmas -/

theorem getD_set (l : List β) (i j : Nat) (x d : β) :
    (l.set i x).getD j d = if i = j ∧ j < l.length then x else l.getD j d := by
  induction l generalizing i j with
  | nil => simp [List.set]
  | cons a t ih =>
    cases i with
    | zero =>
      cases j with
      | zero => simp
      | succ j => simp [List.getD]
    | succ i =>
      cases j with
      | zero => simp [List.getD]
      | succ j =>
        simp only [List.set, List.getD_cons_succ, List.length_cons, ih]
        by_cases h1 : i = j
        · subst h1
          by_cases h2 : i < t.length
          · rw [if_pos ⟨rfl, h2⟩, if_pos ⟨rfl, by omega⟩]
          · rw [if_neg (fun hc => h2 hc.2), if_neg (by omega)]
        · rw [if_neg (fun hc => h1 hc.1), if_neg (by omega)]

theorem getD_of_length_le (l : List β) (i : Nat) (d : β) (h : l.length ≤ i) :
    l.getD i d = d := by
  induction l generalizing i with
  | nil => simp [List.getD]
  | cons a t ih =>
    cases i with
    | zero => simp at h
    | succ i =>
      simp only [List.length_cons] at h
      simpa [List.getD_cons_succ] using ih i (by omega)

theorem ext_getD (l₁ l₂ : List β) (d : β) (hl : l₁.length = l₂.length)
    (h : ∀ i, i < l₁.length → l₁.getD i d = l₂.getD i d) : l₁ = l₂ := by
  induction l₁ generalizing l₂ with
  | nil => cases l₂ with
    | nil => rfl
    | cons b t => simp at hl
  | cons a t ih =>
    cases l₂ with
    | nil => simp at hl
    | cons b t₂ =>
      have h0 := h 0 (by simp)
      simp only [List.getD_cons_zero] at h0
      subst h0
      simp only [List.length_cons, Nat.add_right_cancel_iff] at hl
      have := ih t₂ hl (fun i hi => by
        have := h (i + 1) (by simp; omega)
        simpa [List.getD_cons_succ] using this)
      rw [this]

theorem getD_take (l : List β) (n i : Nat) (d : β) :
    (l.take n).getD i d = if i < n then l.getD i d else d := by
  induction l generalizing n i with
  | nil => simp [List.getD]
  | cons a t ih =>
    cases n with
    | zero => simp [List.getD]
    | succ n =>
      cases i with
      | zero => simp
      | succ i => simpa [List.getD_cons_succ] using ih n i

theorem getD_append_left (l₁ l₂ : List β) (i : Nat) (d : β) (h : i < l₁.length) :
    ((l₁ ++ l₂).getD i d) = l₁.getD i d := by
  induction l₁ generalizing i with
  | nil => simp at h
  | cons a t ih =>
    cases i with
    | zero => simp
    | succ i =>
      simp only [List.length_cons] at h
      simpa [List.getD_cons_succ] using ih i (by omega)

theorem getD_append_right (l₁ l₂ : List β) (i : Nat) (d : β) (h : l₁.length ≤ i) :
    ((l₁ ++ l₂).getD i d) = l₂.getD (i - l₁.length) d := by
  induction l₁ generalizing i with
  | nil => simp
  | cons a t ih =>
    cases i with
    | zero => simp at h
    | succ i =>
      simp only [List.length_cons] at h
      simpa [List.getD_cons_succ, Nat.succ_sub_succ] using ih i (by omega)

theorem getD_replicate (n i : Nat) (x : Option α) :
    ((List.replicate n x).getD i x) = x := by
  induction n generalizing i with
  | zero => simp [List.getD]
  | succ n ih =>
    cases i with
    | zero => simp [List.replicate]
    | succ i => simpa [List.replicate, List.getD_cons_succ] using ih i

/-! ## Loop characterization lemmas -/

theorem fillRange_length (l : List (Option α)) (s : Nat) (x : α) (k : Nat) :
    (fillRange l s x k).length = l.length := by
  induction k generalizing l s with
  | zero => rfl
  | succ k ih => simp [fillRange, ih]

theorem fillRange_getD (l : List (Option α)) (s : Nat) (x : α) (k j : Nat) :
    (fillRange l s x k).getD j none =
      if s ≤ j ∧ j < s + k ∧ j < l.length then some x else l.getD j none := by
  induction k generalizing l s with
  | zero =>
    simp only [fillRange]
    rw [if_neg (by omega)]
  | succ k ih =>
    simp only [fillRange]
    rw [ih]
    simp only [List.length_set, getD_set]
    by_cases hj : j < l.length
    · by_cases hd : s = j
      · subst hd
        rw [if_neg (by omega), if_pos ⟨rfl, hj⟩, if_pos (by omega)]
      · by_cases ha : s ≤ j
        · by_cases hb : j < s + (k + 1)
          · rw [if_pos ⟨by omega, by omega, hj⟩, if_pos (by omega)]
          · rw [if_neg (by omega), if_neg (by omega), if_neg (by omega)]
        · rw [if_neg (by omega), if_neg (by omega), if_neg (by omega)]
    · rw [if_neg (by omega), if_neg (by omega), if_neg (by omega)]

theorem destroyRange_length (l : List (Option α)) (s k : Nat) :
    (destroyRange l s k).length = l.length := by
  induction k generalizing l s with
  | zero => rfl
  | succ k ih => simp [destroyRange, ih]

theorem destroyRange_getD (l : List (Option α)) (s k j : Nat) :
    (destroyRange l s k).getD j none =
      if s ≤ j ∧ j < s + k then none else l.getD j none := by
  induction k generalizing l s with
  | zero =>
    simp only [destroyRange]
    rw [if_neg (by omega)]
  | succ k ih =>
    simp only [destroyRange]
    rw [ih]
    simp only [List.length_set, getD_set]
    by_cases hd : s = j
    · subst hd
      by_cases hj : s < l.length
      · rw [if_neg (by omega), if_pos ⟨rfl, hj⟩, if_pos (by omega)]
      · rw [if_neg (by omega), if_neg (fun hc => by omega), if_pos (by omega),
          getD_of_length_le l s none (by omega)]
    · by_cases ha : s ≤ j
      · by_cases hb : j < s + (k + 1)
        · rw [if_pos (by omega), if_pos (by omega)]
        · rw [if_neg (by omega), if_neg (fun hc => hd hc.1), if_neg (by omega)]
      · rw [if_neg (by omega), if_neg (fun hc => hd hc.1), if_neg (by omega)]

theorem copyLoop_length (dest src : List (Option α)) (i k : Nat) :
    (copyLoop dest src i k).length = dest.length := by
  induction k generalizing dest i with
  | zero => rfl
  | succ k ih => simp [copyLoop, ih]

theorem copyLoop_getD (dest src : List (Option α)) (i k j : Nat) :
    (copyLoop dest src i k).getD j none =
      if i ≤ j ∧ j < i + k ∧ j < dest.length then src.getD j none
      else dest.getD j none := by
  induction k generalizing dest i with
  | zero =>
    simp only [copyLoop]
    rw [if_neg (by omega)]
  | succ k ih =>
    simp only [copyLoop]
    rw [ih]
    simp only [List.length_set, getD_set]
    by_cases hj : j < dest.length
    · by_cases hd : i = j
      · subst hd
        rw [if_neg (by omega), if_pos ⟨rfl, hj⟩, if_pos (by omega)]
      · by_cases ha : i ≤ j
        · by_cases hb : j < i + (k + 1)
          · rw [if_pos ⟨by omega, by omega, hj⟩, if_pos (by omega)]
          · rw [if_neg (by omega), if_neg (by omega), if_neg (by omega)]
        · rw [if_neg (by omega), if_neg (by omega), if_neg (by omega)]
    · rw [if_neg (by omega), if_neg (by omega), if_neg (by omega)]

theorem c_erase_loop_length (l : List (Option α)) (s n k : Nat) :
    (c_erase_loop l s n k).length = l.length := by
  induction k generalizing l s with
  | zero => rfl
  | succ k ih => simp [c_erase_loop, ih]

theorem c_erase_loop_getD (l : List (Option α)) (s n k j : Nat) :
    (c_erase_loop l s n k).getD j none =
      if s ≤ j ∧ j < s + k ∧ j < l.length then l.getD (j + n) none
      else l.getD j none := by
  induction k generalizing l s with
  | zero =>
    simp only [c_erase_loop]
    rw [if_neg (by omega)]
  | succ k ih =>
    simp only [c_erase_loop]
    rw [ih]
    simp only [List.length_set, getD_set]
    by_cases hj : j < l.length
    · by_cases hd : s = j
      · subst hd
        rw [if_neg (by omega), if_pos ⟨rfl, hj⟩, if_pos (by omega)]
      · by_cases ha : s ≤ j
        · by_cases hb : j < s + (k + 1)
          · rw [if_pos ⟨by omega, by omega, hj⟩, if_neg (by omega),
              if_pos (by omega)]
          · rw [if_neg (by omega), if_neg (by omega), if_neg (by omega)]
        · rw [if_neg (by omega), if_neg (by omega), if_neg (by omega)]
    · rw [if_neg (by omega), if_neg (by omega), if_neg (by omega)]

theorem insertShiftLoop_length (l : List (Option α)) (size n k : Nat) :
    (insertShiftLoop l size n k).length = l.length := by
  induction k generalizing l with
  | zero => rfl
  | succ k ih => simp [insertShiftLoop, ih]

theorem insertShiftLoop_getD (l : List (Option α)) (size n k j : Nat) :
    (insertShiftLoop l size n k).getD j none =
      if size ≤ j ∧ j < size + k ∧ j < l.length then l.getD (j - n) none
      else l.getD j none := by
  induction k generalizing l with
  | zero =>
    simp only [insertShiftLoop]
    rw [if_neg (by omega)]
  | succ k ih =>
    simp only [insertShiftLoop]
    rw [ih]
    simp only [List.length_set, getD_set]
    by_cases hj : j < l.length
    · by_cases hd : j = size + k
      · subst hd
        rw [if_neg (by omega), if_pos ⟨rfl, hj⟩, if_pos (by omega)]
      · by_cases ha : size ≤ j
        · by_cases hb : j < size + (k + 1)
          · rw [if_pos ⟨by omega, by omega, hj⟩, if_neg (by omega),
              if_pos (by omega)]
          · rw [if_neg (by omega), if_neg (by omega), if_neg (by omega)]
        · rw [if_neg (by omega), if_neg (by omega), if_neg (by omega)]
    · rw [if_neg (by omega), if_neg (by omega), if_neg (by omega)]

theorem insertWriteLoop_length (l : List (Option α)) (loc : Nat) (x : α) (k : Nat) :
    (insertWriteLoop l loc x k).length = l.length := by
  induction k generalizing l loc with
  | zero => rfl
  | succ k ih => simp [insertWriteLoop, ih]

theorem insertWriteLoop_getD (l : List (Option α)) (loc : Nat) (x : α) (k j : Nat) :
    (insertWriteLoop l loc x k).getD j none =
      if loc ≤ j ∧ j < loc + k ∧ j < l.length then some x else l.getD j none := by
  induction k generalizing l loc with
  | zero =>
    simp only [insertWriteLoop]
    rw [if_neg (by omega)]
  | succ k ih =>
    simp only [insertWriteLoop]
    rw [ih]
    simp only [List.length_set, getD_set]
    by_cases hj : j < l.length
    · by_cases hd : loc = j
      · subst hd
        rw [if_neg (by omega), if_pos ⟨rfl, hj⟩, if_pos (by omega)]
      · by_cases ha : loc ≤ j
        · by_cases hb : j < loc + (k + 1)
          · rw [if_pos ⟨by omega, by omega, hj⟩, if_pos (by omega)]
          · rw [if_neg (by omega), if_neg (by omega), if_neg (by omega)]
        · rw [if_neg (by omega), if_neg (by omega), if_neg (by omega)]
    · rw [if_neg (by omega), if_neg (by omega), if_neg (by omega)]


/-! ## Heap and store lemmas -/

theorem storeWrite_data_none (h : Heap α) (v : vector α) (l : List (Option α))
    (hd : v.data = none) : storeWrite h v l = h := by
  unfold storeWrite
  rw [hd]

theorem blockOf_data_none (h : Heap α) (v : vector α) (hd : v.data = none) :
    blockOf h v = [] := by
  unfold blockOf
  rw [hd]

theorem blockOf_eq_of_data (h : Heap α) (v w : vector α) (hd : v.data = w.data) :
    blockOf h v = blockOf h w := by
  unfold blockOf
  rw [hd]

theorem blockOf_storeWrite_self (h : Heap α) (v w : vector α) (l : List (Option α))
    (a : Nat) (hv : v.data = some a) (hw : w.data = some a) :
    blockOf (storeWrite h v l) w = l := by
  unfold blockOf storeWrite Heap.write
  rw [hv, hw]
  simp

theorem blockOf_storeWrite_other (h : Heap α) (v w : vector α) (l : List (Option α))
    (hne : ∀ a, v.data = some a → w.data ≠ some a) :
    blockOf (storeWrite h v l) w = blockOf h w := by
  unfold blockOf storeWrite Heap.write
  cases hv : v.data with
  | none => rfl
  | some a =>
    cases hw : w.data with
    | none => rfl
    | some b =>
      have : b ≠ a := fun hba => hne a hv (by rw [hw, hba])
      simp [this]

theorem storeWrite_next (h : Heap α) (v : vector α) (l : List (Option α)) :
    (storeWrite h v l).next = h.next := by
  unfold storeWrite Heap.write
  cases v.data <;> rfl

theorem take_succ_set (l : List (Option α)) (m : Nat) (x : Option α)
    (hm : m < l.length) : (l.set m x).take (m + 1) = l.take m ++ [x] := by
  apply ext_getD _ _ none
  · simp only [List.length_take, List.length_set, List.length_append,
      List.length_singleton]
    omega
  · intro i hi
    simp only [List.length_take, List.length_set] at hi
    rw [getD_take, if_pos (by omega), getD_set]
    by_cases him : i = m
    · subst him
      rw [if_pos ⟨rfl, hm⟩,
        getD_append_right _ _ _ _ (by simp only [List.length_take]; omega)]
      simp only [List.length_take]
      rw [Nat.min_eq_left (by omega)]
      simp
    · rw [if_neg (by omega),
        getD_append_left _ _ _ _ (by simp only [List.length_take]; omega), getD_take,
        if_pos (by omega)]

/-! ## Behaviour of `realloc_` -/

theorem realloc_spec (v : vector α) (h : Heap α) (n cap2 : Nat)
    (hcap : cap2 = if n = 0 then (if v.cap = 0 then 2 else v.cap * 2) else n)
    (hwf : wf v h) (hle : v.size ≤ cap2) (hpos : 0 < cap2) :
    (realloc_ v h n).1.data = some h.next ∧
    (realloc_ v h n).1.size = v.size ∧
    (realloc_ v h n).1.cap = cap2 ∧
    wf (realloc_ v h n).1 (realloc_ v h n).2 ∧
    live (realloc_ v h n).2 (realloc_ v h n).1 = live h v ∧
    (realloc_ v h n).2.next = h.next + 1 := by
  obtain ⟨hob, hsc⟩ := hwf
  have hm : malloc h cap2 =
      (some h.next,
        ⟨h.next + 1, fun b => if b = h.next then List.replicate cap2 none
          else h.blocks b⟩) := by
    unfold malloc
    rw [if_neg (by omega)]
  have hre : realloc_ v h n =
      (⟨some h.next, v.size, cap2⟩,
        storeWrite
          (⟨h.next + 1, fun b => if b = h.next then List.replicate cap2 none
            else h.blocks b⟩ : Heap α)
          (⟨some h.next, v.size, cap2⟩ : vector α)
          (copyLoop (List.replicate cap2 none) (blockOf h v) 0 v.size)) := by
    simp only [realloc_]
    rw [← hcap, hm]
  rw [hre]
  have hblock :
      blockOf
        (storeWrite
          (⟨h.next + 1, fun b => if b = h.next then List.replicate cap2 none
            else h.blocks b⟩ : Heap α)
          (⟨some h.next, v.size, cap2⟩ : vector α)
          (copyLoop (List.replicate cap2 none) (blockOf h v) 0 v.size))
        (⟨some h.next, v.size, cap2⟩ : vector α) =
      copyLoop (List.replicate cap2 none) (blockOf h v) 0 v.size :=
    blockOf_storeWrite_self _ _ _ _ h.next rfl rfl
  have hlen : (copyLoop (List.replicate cap2 none) (blockOf h v) 0 v.size).length
      = cap2 := by
    rw [copyLoop_length, List.length_replicate]
  refine ⟨rfl, rfl, rfl, ⟨?_, hle⟩, ?_, rfl⟩
  · show (blockOf _ _).length = cap2
    rw [hblock, hlen]
  · show live _ _ = live h v
    simp only []
    unfold live
    rw [hblock]
    show (copyLoop (List.replicate cap2 none) (blockOf h v) 0 v.size).take v.size
        = (blockOf h v).take v.size
    apply ext_getD _ _ none
    · simp only [List.length_take, hlen, hob]
      omega
    · intro i hi
      simp only [List.length_take, hlen] at hi
      rw [getD_take, if_pos (by omega), copyLoop_getD,
        if_pos ⟨by omega, by omega, by rw [List.length_replicate]; omega⟩,
        getD_take, if_pos (by omega)]


/-! ## Behaviour of `push_back` -/

theorem data_isSome_of_cap_pos (v : vector α) (h : Heap α)
    (hwf : wf v h) (hpos : 0 < v.cap) : ∃ a, v.data = some a := by
  cases hd : v.data with
  | none =>
    exfalso
    have := hwf.1
    rw [blockOf_data_none h v hd] at this
    simp at this
    omega
  | some a => exact ⟨a, rfl⟩

theorem push_final (w : vector α) (h2 : Heap α) (x : α)
    (hwf2 : wf w h2) (hlt : w.size < w.cap) :
    wf (⟨w.data, w.size + 1, w.cap⟩ : vector α)
      (storeWrite h2 w ((blockOf h2 w).set w.size (some x))) ∧
    live (storeWrite h2 w ((blockOf h2 w).set w.size (some x)))
      (⟨w.data, w.size + 1, w.cap⟩ : vector α) = live h2 w ++ [some x] := by
  obtain ⟨hob, hsc⟩ := hwf2
  obtain ⟨a, hda⟩ := data_isSome_of_cap_pos w h2 ⟨hob, hsc⟩ (by omega)
  have hblock :
      blockOf (storeWrite h2 w ((blockOf h2 w).set w.size (some x)))
        (⟨w.data, w.size + 1, w.cap⟩ : vector α) =
      (blockOf h2 w).set w.size (some x) :=
    blockOf_storeWrite_self _ _ _ _ a hda hda
  refine ⟨⟨?_, ?_⟩, ?_⟩
  · show (blockOf _ _).length = w.cap
    rw [hblock, List.length_set, hob]
  · show w.size + 1 ≤ w.cap
    omega
  · unfold live
    rw [hblock]
    show ((blockOf h2 w).set w.size (some x)).take (w.size + 1) = _
    rw [take_succ_set _ _ _ (by omega)]

theorem push_back_spec (v : vector α) (h : Heap α) (x : α) (hwf : wf v h) :
    wf (push_back v h x).1 (push_back v h x).2 ∧
    (push_back v h x).1.size = v.size + 1 ∧
    live (push_back v h x).2 (push_back v h x).1 = live h v ++ [some x] := by
  obtain ⟨hob, hsc⟩ := hwf
  by_cases hfull : v.cap = v.size
  · have hr := realloc_spec v h 0 (if v.cap = 0 then 2 else v.cap * 2) rfl ⟨hob, hsc⟩
      (by by_cases h0 : v.cap = 0 <;> simp [h0] <;> omega)
      (by by_cases h0 : v.cap = 0 <;> simp [h0] <;> omega)
    obtain ⟨hrd, hrs, hrc, hrwf, hrlive, hrnext⟩ := hr
    have hstep := push_final (realloc_ v h 0).1 (realloc_ v h 0).2 x hrwf
      (by rw [hrs, hrc]; by_cases h0 : v.cap = 0 <;> simp [h0] <;> omega)
    have hpb : push_back v h x =
        (⟨(realloc_ v h 0).1.data, (realloc_ v h 0).1.size + 1, (realloc_ v h 0).1.cap⟩,
          storeWrite (realloc_ v h 0).2 (realloc_ v h 0).1
            ((blockOf (realloc_ v h 0).2 (realloc_ v h 0).1).set
              (realloc_ v h 0).1.size (some x))) := by
      simp only [push_back, if_pos hfull]
    rw [hpb]
    exact ⟨hstep.1, by simp only []; rw [hrs], by rw [hstep.2, hrlive]⟩
  · have hstep := push_final v h x ⟨hob, hsc⟩ (by omega)
    have hpb : push_back v h x =
        (⟨v.data, v.size + 1, v.cap⟩,
          storeWrite h v ((blockOf h v).set v.size (some x))) := by
      simp only [push_back, if_neg hfull]
    rw [hpb]
    exact ⟨hstep.1, rfl, hstep.2⟩

/-! ## Example states used by the witnesses -/

/-- The vector `{1, 2, 3}` and the heap holding its block. -/
def exv3 : vector Nat × Heap Nat := vector.ofList (Heap.empty Nat) [1, 2, 3]

/-- C1.  For every well-formed vector state, `push_back` increments the
length by exactly 1, appends the pushed value as the new last live slot,
keeps all previously stored elements, and preserves `capacity >= length`;
consequently the same holds after every call of any sequence of
`push_back` operations (`push_many` folds the whole sequence, and every
intermediate state of the sequence is itself a `push_many` result). -/
theorem C1_push_back_sequence (v : vector α) (h : Heap α) (hwf : wf v h) :
    (∀ x : α,
      (push_back v h x).1.size = v.size + 1 ∧
      live (push_back v h x).2 (push_back v h x).1 = live h v ++ [some x] ∧
      (push_back v h x).1.size ≤ (push_back v h x).1.cap ∧
      wf (push_back v h x).1 (push_back v h x).2) ∧
    (∀ vals : List α,
      (push_many v h vals).1.size = v.size + vals.length ∧
      live (push_many v h vals).2 (push_many v h vals).1 =
        live h v ++ vals.map some ∧
      (push_many v h vals).1.size ≤ (push_many v h vals).1.cap) := by
  constructor
  · intro x
    have hs := push_back_spec v h x hwf
    exact ⟨hs.2.1, hs.2.2, hs.1.2, hs.1⟩
  · intro vals
    induction vals generalizing v h with
    | nil =>
      refine ⟨rfl, by simp [push_many, List.foldl], ?_⟩
      show v.size ≤ v.cap
      exact hwf.2
    | cons a t ih =>
      have hs := push_back_spec v h a hwf
      have hstep : push_many v h (a :: t) =
          push_many (push_back v h a).1 (push_back v h a).2 t := by
        simp [push_many, List.foldl]
      have iht := ih (push_back v h a).1 (push_back v h a).2 hs.1
      rw [hstep]
      refine ⟨?_, ?_, iht.2.2⟩
      · rw [iht.1, hs.2.1]
        simp
        omega
      · rw [iht.2.1, hs.2.2]
        simp

/-- Witness for C1 at the concrete state `{1, 2, 3}` pushing `7` then `9`:
length goes from 3 to 5, the live prefix becomes `1 2 3 7 9`, and
`capacity >= length` still holds. -/
theorem C1_push_back_sequence_witness :
    ((push_many exv3.1 exv3.2 [7, 9]).1.size = exv3.1.size + 2 ∧
      live (push_many exv3.1 exv3.2 [7, 9]).2 (push_many exv3.1 exv3.2 [7, 9]).1 =
        live exv3.2 exv3.1 ++ [7, 9].map some ∧
      (push_many exv3.1 exv3.2 [7, 9]).1.size ≤ (push_many exv3.1 exv3.2 [7, 9]).1.cap) ∧
    live (push_many exv3.1 exv3.2 [7, 9]).2 (push_many exv3.1 exv3.2 [7, 9]).1 =
      [some 1, some 2, some 3, some 7, some 9] :=
  ⟨(C1_push_back_sequence exv3.1 exv3.2 (by decide)).2 [7, 9], by decide⟩


/-- The vector `{1, 2, 3, 4, 5}` and the heap holding its block. -/
def exv5 : vector Nat × Heap Nat := vector.ofList (Heap.empty Nat) [1, 2, 3, 4, 5]

/-- C7.  `at(i)` reports the out-of-range error (a thrown
`std::out_of_range`, modelled as `Except.error`) exactly when
`i >= size_`, and otherwise returns element `i`.  The member only reads
`size_` and `data_[i]`; in the model it consumes the vector and heap and
returns just the element, so the vector is unchanged by construction. -/
theorem C7_at_out_of_range (v : vector α) (h : Heap α) (i : Nat) :
    (v.size ≤ i → at_ v h i = Except.error ()) ∧
    (i < v.size → at_ v h i = Except.ok ((blockOf h v).getD i none)) := by
  constructor
  · intro hge
    unfold at_
    rw [if_pos hge]
  · intro hlt
    unfold at_
    rw [if_neg (by omega)]

/-- Witness for C7 on `{1, 2, 3}`: index 5 is out of range (also on the
empty vector), index 1 yields element 1 (the value 2). -/
theorem C7_at_out_of_range_witness :
    at_ exv3.1 exv3.2 5 = Except.error () ∧
    at_ (vector.new : vector Nat) (Heap.empty Nat) 0 = Except.error () ∧
    at_ exv3.1 exv3.2 1 = Except.ok ((blockOf exv3.2 exv3.1).getD 1 none) ∧
    (blockOf exv3.2 exv3.1).getD 1 none = some 2 :=
  ⟨(C7_at_out_of_range exv3.1 exv3.2 5).1 (by decide),
    (C7_at_out_of_range (vector.new : vector Nat) (Heap.empty Nat) 0).1 (by decide),
    (C7_at_out_of_range exv3.1 exv3.2 1).2 (by decide), by decide⟩

/-! ## Behaviour of `c_erase` and `erase` -/

theorem set_getD_self (l : List (Option α)) (i : Nat) :
    l.set i (l.getD i none) = l := by
  apply ext_getD _ _ none (by simp)
  intro j hj
  simp only [List.length_set] at hj
  rw [getD_set]
  by_cases hij : i = j
  · subst hij
    rw [if_pos ⟨rfl, hj⟩]
  · rw [if_neg (fun hc => hij hc.1)]

theorem c_erase_loop_zero_shift (l : List (Option α)) (s k : Nat) :
    c_erase_loop l s 0 k = l := by
  induction k generalizing l s with
  | zero => rfl
  | succ k ih =>
    simp only [c_erase_loop, Nat.add_zero, set_getD_self]
    exact ih _ _

theorem c_erase_zero (l : List (Option α)) (p e : Nat) : c_erase l p e 0 = l := by
  unfold c_erase
  rw [c_erase_loop_zero_shift]
  rfl

theorem storeWrite_blockOf_self (h : Heap α) (v : vector α) :
    storeWrite h v (blockOf h v) = h := by
  unfold storeWrite blockOf Heap.write
  cases hd : v.data with
  | none => rfl
  | some a =>
    cases h with
    | mk nx bl =>
      simp only []
      congr 1
      funext b
      by_cases hb : b = a
      · subst hb
        rw [if_pos rfl]
      · rw [if_neg hb]

/-- An empty erase range leaves state unchanged: each loop iteration is a
value-preserving self-move-assignment and the destroy loop is empty. -/
theorem eraseRange_self (v : vector α) (h : Heap α) (p : Nat) :
    eraseRange v h p p = (v, h) := by
  unfold eraseRange
  rw [Nat.sub_self, c_erase_zero, storeWrite_blockOf_self]
  rfl

/-- C10.  `erase(p, p)` with an empty range leaves the vector completely
unchanged: the shift loop only performs value-preserving self-assignments
of the live elements `[p, size_)` and the destroy step destroys zero
elements, so length, capacity, data pointer and every stored value stay
the same. -/
theorem C10_erase_empty_range (v : vector α) (h : Heap α) (p : Nat) :
    eraseRange v h p p = (v, h) :=
  eraseRange_self v h p

theorem getD_drop (l : List β) (k i : Nat) (d : β) :
    (l.drop k).getD i d = l.getD (k + i) d := by
  induction l generalizing k with
  | nil => simp [List.getD]
  | cons a t ih =>
    cases k with
    | zero => simp
    | succ k =>
      simp only [List.drop_succ_cons]
      rw [ih k]
      simp [List.getD_cons_succ, Nat.succ_add]

theorem c_erase_length (l : List (Option α)) (s e n : Nat) :
    (c_erase l s e n).length = l.length := by
  unfold c_erase
  rw [destroyRange_length, c_erase_loop_length]

theorem eraseRange_spec (v : vector α) (h : Heap α) (s e : Nat)
    (hwf : wf v h) (hse : s ≤ e) (hes : e ≤ v.size) :
    (eraseRange v h s e).1.size = v.size - (e - s) ∧
    (eraseRange v h s e).1.cap = v.cap ∧
    (eraseRange v h s e).1.data = v.data ∧
    wf (eraseRange v h s e).1 (eraseRange v h s e).2 ∧
    live (eraseRange v h s e).2 (eraseRange v h s e).1 =
      (live h v).take s ++ (live h v).drop e := by
  obtain ⟨hob, hsc⟩ := hwf
  by_cases hn : e - s = 0
  · have hes' : s = e := by omega
    subst hes'
    rw [eraseRange_self]
    refine ⟨?_, rfl, rfl, ⟨hob, hsc⟩, ?_⟩
    · show v.size = v.size - (s - s)
      omega
    · exact (List.take_append_drop s (live h v)).symm
  · have hcap : 0 < v.cap := by omega
    obtain ⟨a, hda⟩ := data_isSome_of_cap_pos v h ⟨hob, hsc⟩ hcap
    have hblock : blockOf (eraseRange v h s e).2 (eraseRange v h s e).1 =
        c_erase (blockOf h v) s v.size (e - s) := by
      unfold eraseRange
      exact blockOf_storeWrite_self _ _ _ _ a hda hda
    refine ⟨rfl, rfl, rfl, ⟨?_, ?_⟩, ?_⟩
    · rw [hblock, c_erase_length, hob]
      rfl
    · show v.size - (e - s) ≤ v.cap
      omega
    · unfold live
      rw [hblock]
      show (c_erase (blockOf h v) s v.size (e - s)).take (v.size - (e - s)) =
        ((blockOf h v).take v.size).take s ++ ((blockOf h v).take v.size).drop e
      have hlen1 : (((blockOf h v).take v.size).take s).length = s := by
        simp only [List.length_take]
        omega
      apply ext_getD _ _ none
      · simp only [List.length_take, List.length_append, List.length_drop,
          c_erase_length, hob]
        omega
      · intro j hj
        simp only [List.length_take, c_erase_length, hob] at hj
        rw [getD_take, if_pos (by omega)]
        unfold c_erase
        rw [destroyRange_getD, if_neg (by omega), c_erase_loop_getD]
        by_cases hs1 : s ≤ j
        · rw [if_pos ⟨hs1, by omega, by omega⟩,
            getD_append_right _ _ _ _ (by rw [hlen1]; omega), hlen1, getD_drop,
            getD_take, if_pos (by omega)]
          congr 1
          omega
        · rw [if_neg (by omega),
            getD_append_left _ _ _ _ (by rw [hlen1]; omega),
            getD_take, if_pos (by omega), getD_take, if_pos (by omega)]

theorem erase1_eq_eraseRange (v : vector α) (h : Heap α) (loc : Nat) :
    erase1 v h loc = eraseRange v h loc (loc + 1) := by
  unfold erase1 eraseRange
  have h1 : loc + 1 - loc = 1 := by omega
  rw [h1]

/-- C8.  `erase` on a valid range `[s, e)` shifts the surviving tail
elements left in ascending order, preserving the relative order of the
survivors (the live prefix becomes `take s ++ drop e` of the old one), and
decreases the length by exactly `e - s`; single-element `erase(pos)` is
the `e = s + 1` instance. -/
theorem C8_erase_shifts_tail (v : vector α) (h : Heap α) (hwf : wf v h) :
    (∀ s e, s ≤ e → e ≤ v.size →
      (eraseRange v h s e).1.size = v.size - (e - s) ∧
      (eraseRange v h s e).1.cap = v.cap ∧
      live (eraseRange v h s e).2 (eraseRange v h s e).1 =
        (live h v).take s ++ (live h v).drop e) ∧
    (∀ p, p < v.size →
      (erase1 v h p).1.size = v.size - 1 ∧
      live (erase1 v h p).2 (erase1 v h p).1 =
        (live h v).take p ++ (live h v).drop (p + 1)) := by
  constructor
  · intro s e hse hes
    have hs := eraseRange_spec v h s e hwf hse hes
    exact ⟨hs.1, hs.2.1, hs.2.2.2.2⟩
  · intro p hp
    rw [erase1_eq_eraseRange]
    have hs := eraseRange_spec v h p (p + 1) hwf (by omega) (by omega)
    refine ⟨?_, hs.2.2.2.2⟩
    rw [hs.1]
    omega

/-- Witness for C8: erasing the position holding `3` (index 2) from
`{1, 2, 3, 4, 5}` yields `{1, 2, 4, 5}` with length 4. -/
theorem C8_erase_shifts_tail_witness :
    ((erase1 exv5.1 exv5.2 2).1.size = exv5.1.size - 1 ∧
      live (erase1 exv5.1 exv5.2 2).2 (erase1 exv5.1 exv5.2 2).1 =
        (live exv5.2 exv5.1).take 2 ++ (live exv5.2 exv5.1).drop 3) ∧
    live (erase1 exv5.1 exv5.2 2).2 (erase1 exv5.1 exv5.2 2).1 =
      [some 1, some 2, some 4, some 5] ∧
    (erase1 exv5.1 exv5.2 2).1.size = 4 :=
  ⟨(C8_erase_shifts_tail exv5.1 exv5.2 (by decide)).2 2 (by decide),
    by decide, by decide⟩


/-- C2 (amended).  Move-construction and move-assignment copy `data_`,
`size_` and `cap_` into the destination (the storage address is
transferred unchanged) and null only the source's `data_` pointer; the
source's `size_` and `cap_` members keep their former values, so the
source is not reset to the default-empty state. -/
theorem C2_move_transfers (other self : vector α) :
    (moveCtor other).1 = ⟨other.data, other.size, other.cap⟩ ∧
    (moveCtor other).2 = ⟨none, other.size, other.cap⟩ ∧
    (moveAssign self other).1 = ⟨other.data, other.size, other.cap⟩ ∧
    (moveAssign self other).2 = ⟨none, other.size, other.cap⟩ :=
  ⟨rfl, rfl, rfl, rfl⟩

/-- C2 counterexample.  Move-constructing from `{1, 2, 3}` leaves the
source with `size_ = 3` and `cap_ = 3` (only `data_` is nulled), so the
source is not in the claimed default-empty state. -/
theorem C2_counterexample :
    (moveCtor exv3.1).2.data = none ∧
    (moveCtor exv3.1).2.size = 3 ∧
    (moveCtor exv3.1).2.cap = 3 ∧
    ¬((moveCtor exv3.1).2.size = 0 ∧ (moveCtor exv3.1).2.cap = 0) := by
  decide

/-- C3.  `copy_swap` in `utility.hpp` executes `temp = a; a = b; b = a;`
(the `temp` it computes is dead), so the second assignment copies the NEW
value of `a` — which is `b`'s old value — back into `b`.  Hence
`vector::swap` copies `other`'s members into `*this` but leaves `other`
unchanged: for all vectors, `swap a b = (b, b)` instead of `(b, a)`.  The
repository's own `test_swap` (`vector_test.cpp`), which asserts
`v2.size() == 3` after `v1.swap(v2)` with `v1 = {1,2,3}`, `v2 = {4,5}`,
fails on this code. -/
theorem C3_swap_bug (a b : vector α) : swap a b = (b, b) := rfl

/-- C4.  Evaluation of the defective `insert`: on an empty vector the
shift loop's unsigned counters underflow and the C++ reads out of bounds
(modelled as `none`); on `{1, 2, 3}` inserting one `9` before the first
element, the loop shifts only the last element (it moves just
`n = size_after - size_` elements), so the result is `9 2 3 3` instead of
the correct `9 1 2 3`. -/
theorem C4_insert_defect :
    (Stl.insert (vector.new : vector Nat) (Heap.empty Nat) 0 9 1).isNone = true ∧
    (Stl.insert exv3.1 exv3.2 0 9 1).map (fun r => (live r.2 r.1, r.1.size)) =
      some ([some 9, some 2, some 3, some 3], 4) ∧
    [some 9, some 2, some 3, some 3] ≠ [some 9, some 1, some 2, some 3] := by
  decide


/-- C5 (amended).  Growth policy of the code: when an append (`push_back`
with `size_ == cap_`) would exceed capacity the new capacity is
`max(capacity * 2, 2)`; when `insert` needs more room the new capacity is
exactly `max(capacity * 2, size + n)`; but `reserve(n)` with
`n > capacity` reallocates to capacity exactly `n` (not
`max(capacity * 2, n)`), and is a no-op otherwise. -/
theorem C5_growth_policy (v : vector α) (h : Heap α) :
    (∀ x : α, v.cap = v.size →
      (push_back v h x).1.cap = stl_max (v.cap * 2) 2) ∧
    (∀ n, v.cap < n → (reserve v h n).1.cap = n) ∧
    (∀ n, n ≤ v.cap → reserve v h n = (v, h)) ∧
    (∀ (loc n : Nat) (x : α), v.cap < v.size + n → v.size ≠ 0 → n ≤ v.size →
      (Stl.insert v h loc x n).map (fun r => r.1.cap) =
        some (stl_max (v.cap * 2) (v.size + n))) := by
  refine ⟨?_, ?_, ?_, ?_⟩
  · intro x hfull
    simp only [push_back, if_pos hfull, realloc_]
    show (if (0 : Nat) = 0 then (if v.cap = 0 then 2 else v.cap * 2) else 0) =
      stl_max (v.cap * 2) 2
    unfold stl_max
    split_ifs <;> omega
  · intro n hlt
    simp only [reserve, if_neg (by omega : ¬ v.cap ≥ n), realloc_]
    show (if n = 0 then (if v.cap = 0 then 2 else v.cap * 2) else n) = n
    rw [if_neg (by omega)]
  · intro n hle
    simp only [reserve, if_pos (by omega : v.cap ≥ n)]
  · intro loc n x hgt hsz hns
    have hmaxne : stl_max (v.cap * 2) (v.size + n) ≠ 0 := by
      unfold stl_max
      split_ifs <;> omega
    simp only [Stl.insert, if_pos (by omega : v.size + n > v.cap), realloc_]
    rw [if_neg (by push_neg; exact ⟨hsz, hns⟩)]
    simp only [Option.map_some']
    congr 1
    show (if stl_max (v.cap * 2) (v.size + n) = 0
      then (if v.cap = 0 then 2 else v.cap * 2)
      else stl_max (v.cap * 2) (v.size + n)) = stl_max (v.cap * 2) (v.size + n)
    rw [if_neg hmaxne]

/-- Witness for C5 at `{1, 2, 3}` (capacity 3 = size 3): a full
`push_back` grows to `max(6, 2) = 6`; `reserve 10` grows to exactly 10;
`reserve 2` is a no-op; `insert` of two copies (new size 5 > 3) grows to
`max(6, 5) = 6`. -/
theorem C5_growth_policy_witness :
    (push_back exv3.1 exv3.2 9).1.cap = stl_max (exv3.1.cap * 2) 2 ∧
    (reserve exv3.1 exv3.2 10).1.cap = 10 ∧
    reserve exv3.1 exv3.2 2 = (exv3.1, exv3.2) ∧
    (Stl.insert exv3.1 exv3.2 1 9 2).map (fun r => r.1.cap) =
      some (stl_max (exv3.1.cap * 2) (exv3.1.size + 2)) :=
  ⟨(C5_growth_policy exv3.1 exv3.2).1 9 (by decide),
    (C5_growth_policy exv3.1 exv3.2).2.1 10 (by decide),
    (C5_growth_policy exv3.1 exv3.2).2.2.1 2 (by decide),
    (C5_growth_policy exv3.1 exv3.2).2.2.2 1 2 9 (by decide) (by decide) (by decide)⟩

/-- C5 counterexample.  With capacity 3 (the vector `{1, 2, 3}`),
`reserve(4)` reallocates to capacity exactly 4, while the claim's formula
`max(capacity * 2, required)` demands `max(6, 4) = 6`. -/
theorem C5_counterexample :
    (reserve exv3.1 exv3.2 4).1.cap = 4 ∧
    stl_max (exv3.1.cap * 2) 4 = 6 ∧ (4 : Nat) ≠ 6 := by
  decide


/-! ## The `data == null iff capacity == 0` invariant (C6) -/

theorem inv_malloc_pair (h : Heap α) (c : Nat) : (malloc h c).1 = none ↔ c = 0 := by
  unfold malloc
  by_cases hc : c = 0
  · simp [hc]
  · simp [hc]

theorem inv_realloc (v : vector α) (h : Heap α) (n : Nat) :
    inv (realloc_ v h n).1 := by
  set c2 := if n = 0 then (if v.cap = 0 then 2 else v.cap * 2) else n with hc2
  have hpos : c2 ≠ 0 := by
    rw [hc2]
    split_ifs <;> omega
  simp only [realloc_]
  rw [← hc2]
  show (malloc h c2).1 = none ↔ c2 = 0
  rw [inv_malloc_pair]

/-- C6 (amended).  The invariant `data_ == nullptr iff cap_ == 0` is
established by every constructor and preserved on the result/destination
of every public operation, EXCEPT that move-construction and
move-assignment null only the source's `data_` while keeping its `cap_`,
so the invariant fails on a moved-from vector whose capacity was nonzero.
(`malloc(0)` is modelled as returning null, a behaviour the C standard
permits, so zero-capacity constructions keep a null pointer.) -/
theorem C6_invariant_per_op [Inhabited α] :
    inv (vector.new : vector α) ∧
    (∀ (h : Heap α) (n : Nat), inv (vector.withCap h n).1) ∧
    (∀ (h : Heap α) (n : Nat) (x : α), inv (vector.withFill h n x).1) ∧
    (∀ (h : Heap α) (l : List α), inv (vector.ofList h l).1) ∧
    (∀ (h : Heap α) (other : vector α), inv (copyCtor other h).1) ∧
    (∀ (b : Bool) (self other : vector α) (h : Heap α), inv self →
      inv (copyAssign b self other h).1) ∧
    (∀ other : vector α, inv other → inv (moveCtor other).1) ∧
    (∀ (self other : vector α), inv other → inv (moveAssign self other).1) ∧
    (∀ (v : vector α) (h : Heap α) (n : Nat), inv v → inv (reserve v h n).1) ∧
    (∀ (v : vector α) (h : Heap α) (n : Nat), inv v → inv (resize v h n).1) ∧
    (∀ (v : vector α) (h : Heap α) (x : α), inv v → inv (push_back v h x).1) ∧
    (∀ (v : vector α) (h : Heap α), inv v → inv (pop_back v h).1) ∧
    (∀ (v : vector α) (h : Heap α), inv v → inv (clear v h).1) ∧
    (∀ (v : vector α) (h : Heap α) (loc : Nat) (x : α) (n : Nat)
      (r : vector α × Heap α), inv v → Stl.insert v h loc x n = some r →
      inv r.1) ∧
    (∀ (v : vector α) (h : Heap α) (loc : Nat), inv v → inv (erase1 v h loc).1) ∧
    (∀ (v : vector α) (h : Heap α) (s e : Nat), inv v →
      inv (eraseRange v h s e).1) ∧
    (∀ a w : vector α, inv w → inv (swap a w).1 ∧ inv (swap a w).2) ∧
    (∀ other : vector α, (moveCtor other).2.data = none ∧
      (moveCtor other).2.cap = other.cap) := by
  refine ⟨?_, ?_, ?_, ?_, ?_, ?_, ?_, ?_, ?_, ?_, ?_, ?_, ?_, ?_, ?_, ?_, ?_, ?_⟩
  · show (none : Option Nat) = none ↔ 0 = 0
    simp
  · intro h n
    show (malloc h n).1 = none ↔ n = 0
    rw [inv_malloc_pair]
  · intro h n x
    show (malloc h n).1 = none ↔ n = 0
    rw [inv_malloc_pair]
  · intro h l
    show (malloc h l.length).1 = none ↔ l.length = 0
    rw [inv_malloc_pair]
  · intro h other
    show (malloc h other.cap).1 = none ↔ other.cap = 0
    rw [inv_malloc_pair]
  · intro b self other h hself
    cases b with
    | true => exact hself
    | false =>
      show (malloc h other.cap).1 = none ↔ other.cap = 0
      rw [inv_malloc_pair]
  · intro other hother
    exact hother
  · intro self other hother
    exact hother
  · intro v h n hv
    unfold reserve
    by_cases hc : v.cap ≥ n
    · rw [if_pos hc]
      exact hv
    · rw [if_neg hc]
      exact inv_realloc v h n
  · intro v h n hv
    unfold resize
    by_cases hc : n > v.cap
    · rw [if_pos hc]
      exact inv_realloc v h n
    · rw [if_neg hc]
      exact hv
  · intro v h x hv
    unfold push_back
    by_cases hc : v.cap = v.size
    · rw [if_pos hc]
      exact inv_realloc v h 0
    · rw [if_neg hc]
      exact hv
  · intro v h hv
    exact hv
  · intro v h hv
    exact hv
  · intro v h loc x n r hv hins
    simp only [Stl.insert] at hins
    by_cases hc : v.size + n > v.cap
    · rw [if_pos hc] at hins
      by_cases hg : (realloc_ v h (stl_max (v.cap * 2) (v.size + n))).1.size = 0 ∨
          n > (realloc_ v h (stl_max (v.cap * 2) (v.size + n))).1.size
      · rw [if_pos hg] at hins
        exact absurd hins (by simp)
      · rw [if_neg hg] at hins
        have := Option.some.inj hins
        rw [← this]
        exact inv_realloc v h (stl_max (v.cap * 2) (v.size + n))
    · rw [if_neg hc] at hins
      by_cases hg : v.size = 0 ∨ n > v.size
      · rw [if_pos hg] at hins
        exact absurd hins (by simp)
      · rw [if_neg hg] at hins
        have := Option.some.inj hins
        rw [← this]
        exact hv
  · intro v h loc hv
    exact hv
  · intro v h s e hv
    exact hv
  · intro a w hw
    exact ⟨hw, hw⟩
  · intro other
    exact ⟨rfl, rfl⟩

/-- Witness for C6: the invariant holds after e.g. `reserve 10` and
`push_back` on the concrete vector `{1, 2, 3}`. -/
theorem C6_invariant_per_op_witness :
    inv (reserve exv3.1 exv3.2 10).1 ∧ inv (push_back exv3.1 exv3.2 9).1 :=
  ⟨(C6_invariant_per_op (α := Nat)).2.2.2.2.2.2.2.2.1 exv3.1 exv3.2 10 (by decide),
    (C6_invariant_per_op (α := Nat)).2.2.2.2.2.2.2.2.2.2.1 exv3.1 exv3.2 9 (by decide)⟩

/-- C6 counterexample.  The moved-from source of a move-construction from
`{1, 2, 3}` is reachable through the public operations, has a null data
pointer, yet keeps capacity 3: the claimed invariant fails on it. -/
theorem C6_counterexample :
    (moveCtor exv3.1).2.data = none ∧ (moveCtor exv3.1).2.cap = 3 ∧
    ¬ inv (moveCtor exv3.1).2 := by
  decide


/-! ## Deep copy (C9) -/

theorem copyLoop_replicate_take (B : List (Option α)) (c2 sz : Nat)
    (h1 : sz ≤ c2) (h2 : sz ≤ B.length) :
    (copyLoop (List.replicate c2 none) B 0 sz).take sz = B.take sz := by
  apply ext_getD _ _ none
  · simp only [List.length_take, copyLoop_length, List.length_replicate]
    omega
  · intro j hj
    simp only [List.length_take, copyLoop_length, List.length_replicate] at hj
    rw [getD_take, if_pos (by omega), copyLoop_getD,
      if_pos ⟨by omega, by omega, by rw [List.length_replicate]; omega⟩,
      getD_take, if_pos (by omega)]

/-- C9.  With `this != &other` (flag `false`), copy assignment makes the
destination a deep copy of the source: same length, the same live
contents, and freshly allocated storage, so that writing an element of the
source afterwards (`setIdx`, i.e. `src[i] = x`) does not change the copy's
block; the source's own contents are also untouched by the assignment.
With `this == &other` (flag `true`), the guard returns immediately and the
state is exactly unchanged. -/
theorem C9_copy_assign_deep (dst src : vector α) (h : Heap α)
    (hwf : wf src h) (hva : validAddr src h) :
    (copyAssign false dst src h).1.size = src.size ∧
    live (copyAssign false dst src h).2 (copyAssign false dst src h).1 =
      live h src ∧
    live (copyAssign false dst src h).2 src = live h src ∧
    (∀ (i : Nat) (x : α),
      blockOf (setIdx src (copyAssign false dst src h).2 i x)
        (copyAssign false dst src h).1 =
      blockOf (copyAssign false dst src h).2 (copyAssign false dst src h).1) ∧
    (∀ (w : vector α) (h2 : Heap α), copyAssign true w w h2 = (w, h2)) := by
  obtain ⟨hob, hsc⟩ := hwf
  by_cases hc0 : src.cap = 0
  · have hm : malloc h src.cap = (none, h) := by
      unfold malloc
      rw [if_pos hc0]
    have h1 : copyAssign false dst src h =
        (⟨(malloc h src.cap).1, src.size, src.cap⟩,
          storeWrite (malloc h src.cap).2
            (⟨(malloc h src.cap).1, src.size, src.cap⟩ : vector α)
            (copyLoop
              (blockOf (malloc h src.cap).2
                (⟨(malloc h src.cap).1, src.size, src.cap⟩ : vector α))
              (blockOf h src) 0 src.size)) := rfl
    have hca : copyAssign false dst src h =
        ((⟨none, src.size, src.cap⟩ : vector α), h) := by
      rw [h1, hm]
      rw [storeWrite_data_none _ _ _ rfl]
    have hsrc0 : blockOf h src = [] :=
      List.eq_nil_of_length_eq_zero (by rw [hob, hc0])
    rw [hca]
    refine ⟨rfl, ?_, rfl, ?_, ?_⟩
    · unfold live
      rw [hsrc0, blockOf_data_none _ _ rfl]
    · intro i x
      rw [blockOf_data_none _ _ rfl, blockOf_data_none _ _ rfl]
    · intro w h2
      rfl
  · obtain ⟨a, hda⟩ := data_isSome_of_cap_pos src h ⟨hob, hsc⟩ (by omega)
    have halt : a < h.next := hva a hda
    have hm : malloc h src.cap =
        (some h.next,
          ⟨h.next + 1, fun b => if b = h.next then List.replicate src.cap none
            else h.blocks b⟩) := by
      unfold malloc
      rw [if_neg hc0]
    have h1 : copyAssign false dst src h =
        (⟨(malloc h src.cap).1, src.size, src.cap⟩,
          storeWrite (malloc h src.cap).2
            (⟨(malloc h src.cap).1, src.size, src.cap⟩ : vector α)
            (copyLoop
              (blockOf (malloc h src.cap).2
                (⟨(malloc h src.cap).1, src.size, src.cap⟩ : vector α))
              (blockOf h src) 0 src.size)) := rfl
    have hdest2 :
        blockOf
          (⟨h.next + 1, fun b => if b = h.next then List.replicate src.cap none
            else h.blocks b⟩ : Heap α)
          (⟨some h.next, src.size, src.cap⟩ : vector α) =
        List.replicate src.cap none := by
      show (if h.next = h.next then List.replicate src.cap none
        else h.blocks h.next) = _
      rw [if_pos rfl]
    have hca : copyAssign false dst src h =
        ((⟨some h.next, src.size, src.cap⟩ : vector α),
          storeWrite
            (⟨h.next + 1, fun b => if b = h.next then List.replicate src.cap none
              else h.blocks b⟩ : Heap α)
            (⟨some h.next, src.size, src.cap⟩ : vector α)
            (copyLoop (List.replicate src.cap none) (blockOf h src) 0 src.size)) := by
      rw [h1, hm, hdest2]
    have hkey :
        blockOf (copyAssign false dst src h).2 (copyAssign false dst src h).1 =
        copyLoop (List.replicate src.cap none) (blockOf h src) 0 src.size := by
      rw [hca]
      show blockOf
        (storeWrite
          (⟨h.next + 1, fun b => if b = h.next then List.replicate src.cap none
            else h.blocks b⟩ : Heap α)
          (⟨some h.next, src.size, src.cap⟩ : vector α)
          (copyLoop (List.replicate src.cap none) (blockOf h src) 0 src.size))
        (⟨some h.next, src.size, src.cap⟩ : vector α) = _
      exact blockOf_storeWrite_self _ _ _ _ h.next rfl rfl
    have hsrcblock :
        blockOf (copyAssign false dst src h).2 src = blockOf h src := by
      rw [hca]
      show blockOf
        (storeWrite
          (⟨h.next + 1, fun b => if b = h.next then List.replicate src.cap none
            else h.blocks b⟩ : Heap α)
          (⟨some h.next, src.size, src.cap⟩ : vector α)
          (copyLoop (List.replicate src.cap none) (blockOf h src) 0 src.size))
        src = _
      rw [blockOf_storeWrite_other _ _ _ _
        (fun b hb => by
          have hb2 : b = h.next :=
            Option.some.inj (show some h.next = some b from hb).symm
          rw [hda, hb2]
          intro hcon
          have : a = h.next := Option.some.inj hcon
          omega)]
      unfold blockOf
      rw [hda]
      show (if a = h.next then List.replicate src.cap none else h.blocks a) = _
      rw [if_neg (by omega)]
    refine ⟨by rw [hca], ?_, ?_, ?_, ?_⟩
    · unfold live
      rw [hkey]
      have hsz : (copyAssign false dst src h).1.size = src.size := by rw [hca]
      rw [hsz]
      exact copyLoop_replicate_take _ _ _ hsc (by omega)
    · unfold live
      rw [hsrcblock]
    · intro i x
      unfold setIdx
      rw [blockOf_storeWrite_other _ _ _ _
        (fun b hb => by
          have hab : a = b := by
            rw [hda] at hb
            exact Option.some.inj hb
          rw [hca]
          show (⟨some h.next, src.size, src.cap⟩ : vector α).data ≠ some b
          intro hcon
          have hbn : h.next = b := Option.some.inj hcon
          omega)]
    · intro w h2
      rfl

/-- Witness for C9: copy-assigning `{1, 2, 3}` into a default vector gives
an equal, independently stored copy; writing `99` into the source
afterwards leaves the copy's block unchanged. -/
theorem C9_copy_assign_deep_witness :
    ((copyAssign false vector.new exv3.1 exv3.2).1.size = exv3.1.size ∧
      live (copyAssign false vector.new exv3.1 exv3.2).2
        (copyAssign false vector.new exv3.1 exv3.2).1 = live exv3.2 exv3.1 ∧
      blockOf (setIdx exv3.1 (copyAssign false vector.new exv3.1 exv3.2).2 0 99)
        (copyAssign false vector.new exv3.1 exv3.2).1 =
      blockOf (copyAssign false vector.new exv3.1 exv3.2).2
        (copyAssign false vector.new exv3.1 exv3.2).1) ∧
    live exv3.2 exv3.1 = [some 1, some 2, some 3] := by
  have hth := C9_copy_assign_deep vector.new exv3.1 exv3.2 (by decide) (by decide)
  exact ⟨⟨hth.1, hth.2.1, hth.2.2.2.1 0 99⟩, by decide⟩

end Stl
